import Mathlib

/-!
Verification development for the copilot-os orchestration core
(prompt-clarity evaluator, capability registry with keyword ranking,
chain executor), shallowly embedded from the Go sources:

  * internal/prompt/evaluator.go   (Evaluate, suggestRefinement,
                                    containsActionVerb, ExtractKeywords)
  * internal/agents/doc.go         (Registry, Add/Get/All, MatchKeywords,
                                    calculateMatchScore)
  * internal/cli/invoker.go        (InvocationResult, Invoker.InvokeAgent)
  * orchestrator package           (ContextState, RunWithAuto,
                                    RunWithExplicitChain, executeChain,
                                    buildAgentPrompt, synthesizeOutput,
                                    selectAgents, selectTopAgents,
                                    buildRationale)

Modelling conventions:
  * Go strings are modelled as Lean `String`/`List Char`; `len(s)` (byte
    length) is modelled as the sum of UTF-8 sizes of the characters.
  * Go float64 confidence arithmetic: every value reachable in `Evaluate`
    is an exact multiple of 0.1, so confidence is modelled exactly in
    tenths as an integer (0.7 is 7, 1.0 is 10); the map x to 10*x is an
    order embedding, so every comparison the code makes is preserved, and
    accumulated float64 rounding error (below 1e-14) can never bridge the
    0.1 gap between distinct reachable values, so no comparison outcome
    can differ between float64 and this exact model.  `MatchKeywords`
    scores (multiples of 1.0) are likewise exact integers: 2 per keyword
    match, so the spec's "4.0" is 4.
  * Go map iteration order (used by `ExtractKeywords` over its
    `domainKeywords` map) is unspecified and randomized at runtime; it is
    modelled by an explicit rule-order parameter.  `domainRules` lists the
    entries in declaration order.
  * `context.Context` cancellation, observed by `executeChain` once per
    step boundary, is modelled as a function `Nat → Bool` from the step
    index (the number of outcomes recorded so far) to the observation.
  * The external invocation collaborator is a parameter of type
    `String → String → Except String InvocationResult`; `Except.error e`
    models `InvokeAgent` returning a non-nil Go error `e`.
  * Executions also return the trace of (agentName, prompt) pairs passed
    to the collaborator, in order, so that "invokes zero capabilities"
    and "the augmented prompt of step i" are directly observable.
-/

namespace CopilotOS

/-! ## Character classes (Go `unicode.IsSpace`, RE2 `\s`, RE2 `\b`, ASCII lowering) -/

/-- Go `unicode.IsSpace` (the set trimmed by `strings.TrimSpace` and used by
`strings.Fields`). -/
def isGoSpace (c : Char) : Bool :=
  c = ' ' || c = '\t' || c = '\n' || (c.toNat = 0x0b) || (c.toNat = 0x0c) ||
  c = '\r' || c.toNat = 0x85 || c.toNat = 0xA0 ||
  c.toNat = 0x1680 || (0x2000 ≤ c.toNat && c.toNat ≤ 0x200a) ||
  c.toNat = 0x2028 || c.toNat = 0x2029 || c.toNat = 0x202f ||
  c.toNat = 0x205f || c.toNat = 0x3000

/-- RE2 Perl class `\s` = `[\t\n\f\r ]` (used by the `\s+` in the second
vagueness pattern). -/
def isRegexSpace (c : Char) : Bool :=
  c = ' ' || c = '\t' || c = '\n' || (c.toNat = 0x0c) || c = '\r'

/-- RE2 word characters `[0-9A-Za-z_]`, defining the `\b` boundary. -/
def isWordChar (c : Char) : Bool :=
  ('a' ≤ c && c ≤ 'z') || ('A' ≤ c && c ≤ 'Z') || ('0' ≤ c && c ≤ '9') || c = '_'

/-- ASCII lowercasing of one character, as applied rune-wise by
`strings.ToLower` on ASCII input. -/
def goToLower (c : Char) : Char :=
  if 'A' ≤ c && c ≤ 'Z' then Char.ofNat (c.toNat + 32) else c

/-! ## String primitives -/

/-- `strings.TrimSpace`. -/
def goTrimSpace (l : List Char) : List Char :=
  ((l.dropWhile isGoSpace).reverse.dropWhile isGoSpace).reverse

/-- Go `len(s)`: the UTF-8 byte length. -/
def utf8Len (l : List Char) : Nat :=
  (l.map Char.utf8Size).sum

/-- Helper for `countFields`: counts starts of maximal non-space runs;
`prevSpace` records whether the previous character was a separator. -/
def countFieldsAux (prevSpace : Bool) : List Char → Nat
  | [] => 0
  | c :: rest =>
    (if !isGoSpace c && prevSpace then 1 else 0) + countFieldsAux (isGoSpace c) rest

/-- `len(strings.Fields(s))`: the number of whitespace-separated fields. -/
def countFields (l : List Char) : Nat :=
  countFieldsAux true l

/-- `strings.Contains(s, pat)`: `pat` occurs as a contiguous substring. -/
def containsSub : List Char → List Char → Bool
  | [], pat => pat.isPrefixOf []
  | c :: rest, pat => pat.isPrefixOf (c :: rest) || containsSub rest pat

/-! ## The two vagueness regexes of `NewEvaluator`

`\b(thing|stuff|something)\b` and `\b(check|look|review|fix)\s+(it|this|that)\b`,
modelled as existence of a match at some position. -/

/-- Does the word `w` occur at position `i` of `l` (exact characters)? -/
def sublistAt (l : List Char) (i : Nat) (w : List Char) : Bool :=
  (l.drop i).take w.length == w

/-- Is the character at position `j` absent or a non-word character?
(Out-of-range positions count as boundaries.) -/
def nonWordAt (l : List Char) (j : Nat) : Bool :=
  !(isWordChar (l.getD j ' '))

/-- Does `w` occur at position `i` of `l` with `\b` on both sides? -/
def matchesWordAt (l : List Char) (w : List Char) (i : Nat) : Bool :=
  sublistAt l i w && (i == 0 || nonWordAt l (i - 1)) && nonWordAt l (i + w.length)

/-- `regexp.MatchString` for `\b(thing|stuff|something)\b`. -/
def vaguePattern1 (l : List Char) : Bool :=
  (List.range (l.length + 1)).any fun i =>
    ["thing", "stuff", "something"].any fun w => matchesWordAt l w.toList i

/-- `regexp.MatchString` for `\b(check|look|review|fix)\s+(it|this|that)\b`. -/
def vaguePattern2 (l : List Char) : Bool :=
  (List.range (l.length + 1)).any fun i =>
    ["check", "look", "review", "fix"].any fun v =>
      sublistAt l i v.toList && (i == 0 || nonWordAt l (i - 1)) &&
      ((List.range (l.length + 1)).any fun k =>
        decide (1 ≤ k) && ((l.drop (i + v.toList.length)).take k).all isRegexSpace &&
        (["it", "this", "that"].any fun w =>
          sublistAt l (i + v.toList.length + k) w.toList &&
          nonWordAt l (i + v.toList.length + k + w.toList.length)))

/-- The loop over `e.vaguenessPatterns` (with its `break`, the penalty is
applied at most once, so only the disjunction matters). -/
def vaguenessMatch (l : List Char) : Bool :=
  vaguePattern1 l || vaguePattern2 l

/-! ## `containsActionVerb` -/

/-- The fixed action-verb vocabulary of `containsActionVerb`. -/
def actionVerbs : List String :=
  ["review", "analyze", "check", "test", "generate", "design", "create",
   "refactor", "improve", "optimize", "fix", "debug", "explain",
   "implement", "architect", "validate", "verify"]

/-- `containsActionVerb`: case-insensitive substring test against the fixed
vocabulary. -/
def containsActionVerb (l : List Char) : Bool :=
  actionVerbs.any fun a => containsSub (l.map goToLower) a.toList

/-! ## `ExtractKeywords` -/

/-- One entry of the `domainKeywords` map: the alternation's literal terms,
and the two associated agent keywords. -/
abbrev DomainRule := List String × List String

/-- The four entries of `domainKeywords`, in declaration order.  The Go code
ranges over a `map`, whose iteration order is unspecified; functions below
therefore take the iteration order as a parameter. -/
def domainRules : List DomainRule :=
  [(["code", "review", "quality", "bug", "issue", "fix", "check", "error",
     "performance", "refactor", "correct"], ["code-review", "quality"]),
   (["test", "coverage", "unit-test", "mock", "integration-test", "edge-case"],
    ["test-generator", "testing"]),
   (["architecture", "design", "pattern", "structure", "organize", "scale",
     "module", "boundary"], ["architecture-advisor", "design"]),
   (["doc", "readme", "guide", "comment", "explain", "write", "api",
     "tutorial"], ["documentation-writer", "docs"])]

/-- `regexp.MustCompile(pattern).MatchString(promptLower)` for an alternation
of literal terms: some term occurs as a substring. -/
def ruleMatches (lower : List Char) (r : DomainRule) : Bool :=
  r.1.any fun t => containsSub lower t.toList

/-- The duplicate-removal pass of `ExtractKeywords` (first occurrence wins). -/
def dedupeKeywords : List String → List String → List String
  | _, [] => []
  | seen, k :: ks =>
    if seen.contains k then dedupeKeywords seen ks
    else k :: dedupeKeywords (k :: seen) ks

/-- `ExtractKeywords(prompt)`, parameterized by the iteration order `ro` of
the `domainKeywords` map (Go randomizes it; `domainRules` is declaration
order). -/
def extractKeywordsWith (ro : List DomainRule) (p : String) : List String :=
  let lower := p.toList.map goToLower
  dedupeKeywords [] (((ro.filter (ruleMatches lower)).map Prod.snd).flatten)

/-! ## The evaluator -/

/-- `prompt.EvaluationResult` (confidence modelled exactly in tenths:
the integer `c` stands for the float64 value `c/10`). -/
structure EvaluationResult where
  isClear : Bool
  feedback : String
  suggestedRefinement : String
  confidence : ℤ
  detectedIssues : List String
  refinedPrompt : String
  suggestedAgentKeywords : List String
  deriving Repr, DecidableEq

/-- `minimumLength` of `NewEvaluator`. -/
def evaluatorMinimumLength : Nat := 10

/-- `minimumWords` of `NewEvaluator`. -/
def evaluatorMinimumWords : Nat := 2

/-- `confidenceThreshold` of `NewEvaluator` (0.7, in tenths). -/
def evaluatorConfidenceThreshold : ℤ := 7

/-- The issue text appended when the prompt is shorter than 10 bytes. -/
def shortIssue : String := "Prompt is too short and lacks context"

/-- The issue text appended when the prompt has fewer than 2 words. -/
def detailIssue : String := "Prompt lacks sufficient detail"

/-- The issue text appended when a vagueness pattern matches. -/
def vagueIssue : String := "Prompt uses vague terms (e.g., 'it', 'this', 'module')"

/-- The suffix appended by `suggestRefinement` for vague prompts. -/
def forSuffix : String := " for correctness and best practices"

/-- The suffix appended by `suggestRefinement` for too-short prompts. -/
def includingSuffix : String := " including error handling and edge cases"

/-- `strings.Contains` on `String`s. -/
def containsStr (s pat : String) : Bool :=
  containsSub s.toList pat.toList

/-- `suggestRefinement(prompt, issues)`. -/
def suggestRefinement (p : String) (issues : List String) : String :=
  let refined := p
  let refined :=
    if 0 < issues.length && containsStr (issues.headD "") "vague" then
      if !containsStr refined " for " && !containsStr refined " including " then
        refined ++ forSuffix
      else refined
    else refined
  let refined :=
    if 0 < issues.length && containsStr (issues.headD "") "too short" then
      if !containsStr refined " including " then refined ++ includingSuffix
      else refined
    else refined
  refined

/-- The two final clamping `if`s of `Evaluate` (`if conf < 0 { conf = 0 }`,
then `if conf > 1 { conf = 1 }`; 1.0 is 10 in tenths). -/
def clampConfidence (x : ℤ) : ℤ :=
  let conf7 := if x < 0 then 0 else x
  if 10 < conf7 then 10 else conf7

/-- The confidence updates of `Evaluate` on the trimmed, non-empty prompt
`T` before clamping, in source order (in tenths): base 0.7 (= 7), the three
`-= 0.2` (= 2) penalty `if`s (length, word count, vagueness — the pattern
loop `break`s, so at most one vagueness penalty), the three `+= 0.1` (= 1)
bonus `if`s. -/
def preClampConfidence (T : List Char) : ℤ :=
  let conf1 := if utf8Len T < evaluatorMinimumLength then 7 - 2 else 7
  let conf2 := if countFields T < evaluatorMinimumWords then conf1 - 2 else conf1
  let conf3 := if vaguenessMatch (T.map goToLower) then conf2 - 2 else conf2
  let conf4 :=
    if containsSub T ".go".toList || containsSub T "/".toList then conf3 + 1
    else conf3
  let conf5 :=
    if containsSub T "func".toList || containsSub T "()".toList then conf4 + 1
    else conf4
  if containsActionVerb T then conf5 + 1 else conf5

/-- The confidence `Evaluate` stores for a trimmed, non-empty prompt `T`. -/
def confidenceSteps (T : List Char) : ℤ :=
  clampConfidence (preClampConfidence T)

/-- The `DetectedIssues` appends of `Evaluate`, driven by the same
conditions in the same order as the confidence penalties. -/
def issuesSteps (T : List Char) : List String :=
  (if utf8Len T < evaluatorMinimumLength then [shortIssue] else []) ++
  (if countFields T < evaluatorMinimumWords then [detailIssue] else []) ++
  (if vaguenessMatch (T.map goToLower) then [vagueIssue] else [])

/-- `Evaluator.Evaluate(prompt)`, parameterized by the map iteration order
used by its final `ExtractKeywords` call.  `goTrimSpace p.toList` is the
trimmed prompt the Go code reassigns to its local `prompt`; the per-field
computations on it are `confidenceSteps` and `issuesSteps` above. -/
def evaluate (ro : List DomainRule) (p : String) : EvaluationResult :=
  if goTrimSpace p.toList = [] then
    { isClear := false
      feedback := "Prompt is empty. Please provide a task description."
      suggestedRefinement := ""
      confidence := 0
      detectedIssues := []
      refinedPrompt := p
      suggestedAgentKeywords := [] }
  else if evaluatorConfidenceThreshold ≤ confidenceSteps (goTrimSpace p.toList) then
    { isClear := true
      feedback := "Prompt is clear and actionable."
      suggestedRefinement := ""
      confidence := confidenceSteps (goTrimSpace p.toList)
      detectedIssues := issuesSteps (goTrimSpace p.toList)
      refinedPrompt := ⟨goTrimSpace p.toList⟩
      suggestedAgentKeywords := extractKeywordsWith ro ⟨goTrimSpace p.toList⟩ }
  else
    { isClear := false
      feedback := "Prompt could be improved for clarity and specificity."
      suggestedRefinement :=
        suggestRefinement ⟨goTrimSpace p.toList⟩ (issuesSteps (goTrimSpace p.toList))
      confidence := confidenceSteps (goTrimSpace p.toList)
      detectedIssues := issuesSteps (goTrimSpace p.toList)
      refinedPrompt :=
        suggestRefinement ⟨goTrimSpace p.toList⟩ (issuesSteps (goTrimSpace p.toList))
      suggestedAgentKeywords := extractKeywordsWith ro ⟨goTrimSpace p.toList⟩ }

/-! ## The agent registry (`internal/agents`) -/

/-- `agents.Agent`. -/
structure Agent where
  name : String
  description : String
  keywords : List String
  deriving Repr, DecidableEq

/-- The registry is its agents in registration order (`Registry.order`
indexing `Registry.agents`; `Add` keeps names unique, so a list of the
agents carries the same information). -/
abbrev Registry := List Agent

/-- `Registry.Get(name)` (map lookup; `Add` keeps names unique). -/
def registryGet (reg : Registry) (name : String) : Option Agent :=
  reg.find? fun a => a.name == name

/-- `calculateMatchScore(agentKeywords, searchKeywords)`: 2.0 (the exact
integer 2) per agent keyword present in the search set (the set built from
the input list, so membership in the input list). -/
def calculateMatchScore (agentKeywords : List String) (searchKeywords : List String) : ℤ :=
  if agentKeywords.length = 0 || searchKeywords.length = 0 then 0
  else 2 * (agentKeywords.countP fun kw => searchKeywords.contains kw)

/-- An agent paired with its score (the local `scored` struct of
`MatchKeywords`). -/
structure Scored where
  agent : Agent
  score : ℤ
  deriving Repr, DecidableEq

/-- One pass of the inner `j` loop of the manual quadratic sort in
`MatchKeywords`, threading the current element of slot `i`: whenever a later
element scores strictly higher it is swapped into slot `i` and the previous
occupant takes its place. Returns the final occupant of slot `i` and the
remaining slots `i+1..`. -/
def selectStep : Scored → List Scored → Scored × List Scored
  | x, [] => (x, [])
  | x, y :: ys =>
    if x.score < y.score then
      let r := selectStep y ys
      (r.1, x :: r.2)
    else
      let r := selectStep x ys
      (r.1, y :: r.2)

/-- The outer `i` loop of the manual quadratic sort; the fuel equals the
number of outer iterations (the slice length). -/
def exchangeSortGo : Nat → List Scored → List Scored
  | 0, l => l
  | _ + 1, [] => []
  | n + 1, x :: xs =>
    let r := selectStep x xs
    r.1 :: exchangeSortGo n r.2

/-- The manual quadratic sort of `MatchKeywords` (descending by score,
*not* stable). -/
def exchangeSort (l : List Scored) : List Scored :=
  exchangeSortGo l.length l

/-- `Registry.MatchKeywords(keywords)`. -/
def matchKeywords (reg : Registry) (keywords : List String) : List Agent :=
  let scores := reg.filterMap fun a =>
    let s := calculateMatchScore a.keywords keywords
    if 0 < s then some (Scored.mk a s) else none
  (exchangeSort scores).map Scored.agent

/-! ## The invocation collaborator boundary (`internal/cli`) -/

/-- `cli.InvocationResult`.  `Output` (a `json.RawMessage`, nil when unset)
is an `Option String`; the wall-clock `Duration`/`Timestamp` fields carry no
program logic and are omitted. -/
structure InvocationResult where
  agent : String
  success : Bool
  output : Option String
  error : String
  exitCode : Int
  deriving Repr, DecidableEq

/-- What the one `cmd.Run()` of `InvokeAgent` produced: captured stdout and
stderr, the run error (`none` for a nil error) with its exit code (`some`
exactly for an `exec.ExitError`) and message (`err.Error()`), and whether
`ctx.Err() == context.DeadlineExceeded` held afterwards. -/
structure CmdOutcome where
  stdout : String
  stderr : String
  runError : Option (Option Int × String)
  timedOut : Bool

/-- `Invoker.InvokeAgent(ctx, agentName, prompt)` given the outcome of its
command execution.  `timeoutDesc` models the formatted `i.timeout`.  The
stdout-handling branch parses stdout as JSON or wraps it as a JSON string;
either way `Output` is non-nil and derived from stdout exactly when stdout
is non-empty, which is all the claims depend on, so the stored value is
modelled as the raw stdout.  Returns the `(result, error)` pair; the
second component models the returned Go `error`. -/
def invokeAgent (timeoutDesc : String) (agentName : String) (o : CmdOutcome) :
    InvocationResult × Option String :=
  let exitCode : Int := match o.runError with
    | some (some code, _) => code
    | _ => 0
  let output : Option String := if o.stdout ≠ "" then some o.stdout else none
  let success1 : Bool := o.stdout ≠ ""
  let err : String :=
    match o.runError with
    | none => ""
    | some (_, msg) =>
      if o.timedOut then "agent invocation timed out after " ++ timeoutDesc
      else if o.stderr ≠ "" then o.stderr else msg
  let success2 : Bool := if o.runError.isSome then false else success1
  ({ agent := agentName, success := success2, output := output,
     error := err, exitCode := exitCode }, none)

/-! ## The orchestrator -/

/-- The abstract invocation collaborator used by `executeChain`:
`Except.error e` models `o.invoker.InvokeAgent` returning a non-nil Go
error `e`, `Except.ok r` a nil error with result `r`. -/
abbrev Invoker := String → String → Except String InvocationResult

/-- The errors the orchestrator can return to its caller: an unresolved
explicit agent name (`fmt.Errorf("agent %q not found", name)`) or upstream
context cancellation (`ctx.Err()`). -/
inductive OrchError where
  | notFound (name : String)
  | cancelled
  deriving Repr, DecidableEq

/-- The identity preamble of `buildAgentPrompt`: base prompt plus the
`[Agent Context: ...]` segment (always present). -/
def identitySegment (basePrompt : String) (a : Agent) : String :=
  basePrompt ++ "\n\n[Agent Context: You are the " ++ a.name ++ ". " ++
    a.description ++ "]"

/-- The forwarded-results block of `buildAgentPrompt`: one line per prior
result, in order, then the closing instruction. -/
def forwardSegment (rs : List InvocationResult) : String :=
  "\n\n[Previous Agent Results:]" ++
  String.join ((rs.enum.map fun p =>
    "\n- Agent " ++ toString (p.1 + 1) ++ " (" ++ p.2.agent ++ "): " ++
      (p.2.output.getD ""))) ++
  "\n[Consider these results in your response]"

/-- `buildAgentPrompt(basePrompt, agent, contextState)`: identity preamble,
then the forwarded block only when the accumulated context is non-empty. -/
def buildAgentPrompt (basePrompt : String) (a : Agent)
    (ctxResults : List InvocationResult) : String :=
  identitySegment basePrompt a ++
    (if 0 < ctxResults.length then forwardSegment ctxResults else "")

/-- `synthesizeOutput(contextState, results)` (the `contextState` parameter
is unused by the Go body; only `results` matters): header, one block per
outcome, footer with totals. -/
def synthesizeOutput (results : List InvocationResult) : String :=
  "=== Agent Chain Results ===\n\n" ++
  String.join (results.enum.map fun p =>
    "## Agent " ++ toString (p.1 + 1) ++ ": " ++ p.2.agent ++ "\n" ++
    (if p.2.success then
       "Status: ✓ Success\n" ++
       (match p.2.output with
        | some out => "Output:\n" ++ out ++ "\n\n"
        | none => "")
     else
       "Status: ✗ Failed\n" ++
       (if p.2.error ≠ "" then "Error: " ++ p.2.error ++ "\n\n" else ""))) ++
  "\n=== Summary ===\n" ++
  "Total Agents Executed: " ++ toString results.length ++ "\n" ++
  "Successful Executions: " ++ toString (results.countP (·.success)) ++ "\n"

/-- The per-step result of `executeChain`: the collaborator's result, or,
when the collaborator itself failed, the synthetic failed outcome built in
the `err != nil` branch. -/
def stepResult (inv : Invoker) (name promptText : String) : InvocationResult :=
  match inv name promptText with
  | .ok r => r
  | .error e =>
    { agent := name, success := false, output := none, error := e, exitCode := 1 }

/-- Everything `executeChain` produces: the synthesized output, the full
outcome list, the returned error, and the trace of `(name, prompt)` calls
made to the collaborator. -/
structure ChainOut where
  finalOutput : String
  results : List InvocationResult
  err : Option OrchError
  calls : List (String × String)
  deriving Repr, DecidableEq

/-- `executeChain(ctx, prompt, agents, initialContext)`.  `c k` is whether
upstream cancellation is observed at the step boundary after `k` outcomes
have been recorded (the `select` on `ctx.Done()`); `results` and
`ctxResults` are the accumulators (`results`, `contextState.AgentResults`),
both `[]` at the call sites. -/
def executeChain (inv : Invoker) (c : Nat → Bool) (basePrompt : String) :
    List Agent → List InvocationResult → List InvocationResult → ChainOut
  | [], results, _ =>
    { finalOutput := synthesizeOutput results, results := results,
      err := none, calls := [] }
  | a :: rest, results, ctxResults =>
    if c results.length then
      { finalOutput := "", results := results, err := some .cancelled, calls := [] }
    else
      let pr := buildAgentPrompt basePrompt a ctxResults
      let r := stepResult inv a.name pr
      let out := executeChain inv c basePrompt rest (results ++ [r])
        (if r.success && r.output.isSome then ctxResults ++ [r] else ctxResults)
      { finalOutput := out.finalOutput, results := out.results,
        err := out.err, calls := (a.name, pr) :: out.calls }

/-- `selectAgents(keywords, maxCount)`. -/
def selectAgents (reg : Registry) (keywords : List String) (maxCount : Nat) :
    List Agent :=
  (matchKeywords reg keywords).take maxCount

/-- `selectTopAgents(count)`. -/
def selectTopAgents (reg : Registry) (count : Nat) : List Agent :=
  reg.take count

/-- `agentNames(agents)`. -/
def agentNames (l : List Agent) : List String :=
  l.map Agent.name

/-- `buildRationale(keywords, selectedAgents)`. -/
def buildRationale (keywords : List String) (selected : List Agent) : String :=
  if selected.length = 0 then "No agents matched the prompt keywords"
  else
    "Selected based on keywords: " ++ String.intercalate ", " keywords ++ ". " ++
    "Agents: " ++ String.intercalate ", " (agentNames selected)

/-- `orchestrator.ContextState` (TotalDuration, wall-clock only, omitted). -/
structure ContextState where
  originalPrompt : String
  refinedPrompt : String
  evaluationFeedback : EvaluationResult
  agentResults : List InvocationResult
  finalOutput : String
  selectedAgents : List String
  selectionRationale : String
  deriving Repr, DecidableEq

/-- The zero value of `prompt.EvaluationResult` (what
`RunWithExplicitChain` leaves in the state when it fails before
evaluating). -/
def emptyEvaluation : EvaluationResult :=
  { isClear := false, feedback := "", suggestedRefinement := "",
    confidence := 0, detectedIssues := [], refinedPrompt := "",
    suggestedAgentKeywords := [] }

/-- `RunWithAuto(ctx, userPrompt)`.  `roEval`/`roSel` are the map iteration
orders of the two `ExtractKeywords` calls (inside `Evaluate`, and the
orchestrator's own).  Besides the `(state, error)` pair of the Go function
it returns the collaborator call trace. -/
def runWithAuto (roEval roSel : List DomainRule) (reg : Registry)
    (inv : Invoker) (c : Nat → Bool) (userPrompt : String) :
    ContextState × Option OrchError × List (String × String) :=
  let evaluation := evaluate roEval userPrompt
  let refinedPrompt := evaluation.refinedPrompt
  let keywords := extractKeywordsWith roSel refinedPrompt
  let selected0 := selectAgents reg keywords 2
  let selected := if selected0.length = 0 then selectTopAgents reg 3 else selected0
  let state : ContextState :=
    { originalPrompt := userPrompt, refinedPrompt := refinedPrompt,
      evaluationFeedback := evaluation, agentResults := [], finalOutput := "",
      selectedAgents := agentNames selected,
      selectionRationale := buildRationale keywords selected }
  let out := executeChain inv c refinedPrompt selected [] []
  match out.err with
  | some e => (state, some e, out.calls)
  | none =>
    ({ state with agentResults := out.results, finalOutput := out.finalOutput },
     none, out.calls)

/-- The name-resolution loop of `RunWithExplicitChain`: the first name whose
lookup fails aborts with that name; otherwise the resolved agents in order. -/
def resolveAgents (reg : Registry) : List String → Except String (List Agent)
  | [] => .ok []
  | n :: ns =>
    match registryGet reg n with
    | none => .error n
    | some a =>
      match resolveAgents reg ns with
      | .error m => .error m
      | .ok rest => .ok (a :: rest)

/-- `RunWithExplicitChain(ctx, userPrompt, agentNames)`, with the
collaborator call trace (empty when the function returns before calling
`executeChain`). -/
def runWithExplicitChain (roEval : List DomainRule) (reg : Registry)
    (inv : Invoker) (c : Nat → Bool) (userPrompt : String)
    (names : List String) :
    ContextState × Option OrchError × List (String × String) :=
  let state0 : ContextState :=
    { originalPrompt := userPrompt, refinedPrompt := userPrompt,
      evaluationFeedback := emptyEvaluation, agentResults := [],
      finalOutput := "", selectedAgents := names, selectionRationale := "" }
  match resolveAgents reg names with
  | .error n => (state0, some (OrchError.notFound n), [])
  | .ok selected =>
    let state1 := { state0 with evaluationFeedback := evaluate roEval userPrompt }
    let out := executeChain inv c userPrompt selected [] []
    match out.err with
    | some e => (state1, some e, out.calls)
    | none =>
      ({ state1 with agentResults := out.results, finalOutput := out.finalOutput },
       none, out.calls)

/-! ## Confidence characterization -/

/-- The total confidence penalty of `Evaluate` on a trimmed, non-empty
prompt `T` (in tenths): 0.2 (= 2) each for byte length below 10, fewer than
2 words, and a vagueness-pattern match (the latter at most once). -/
def rawPenalties (T : List Char) : ℤ :=
  (if utf8Len T < evaluatorMinimumLength then 2 else 0)
  + (if countFields T < evaluatorMinimumWords then 2 else 0)
  + (if vaguenessMatch (T.map goToLower) then 2 else 0)

/-- The total confidence bonus of `Evaluate` (in tenths): 0.1 (= 1) each
for a path/file token, a function token, and an action verb. -/
def rawBonuses (T : List Char) : ℤ :=
  (if containsSub T ".go".toList || containsSub T "/".toList then 1 else 0)
  + (if containsSub T "func".toList || containsSub T "()".toList then 1 else 0)
  + (if containsActionVerb T then 1 else 0)

/-- The pre-clamp confidence of `Evaluate` on a (trimmed, non-empty) prompt
`T`, written as one closed formula (in tenths): base 0.7 (= 7), minus the
penalties, plus the bonuses. -/
def rawConfidence (T : List Char) : ℤ :=
  7 - rawPenalties T + rawBonuses T

/-! ## The CLI invoker as a chain collaborator, and concrete fixtures -/

/-- The chain executor's view of `Invoker.InvokeAgent`: a collaborator
error (`Except.error`) arises exactly when `InvokeAgent` returns a non-nil
Go error. -/
def invokerOfCLI (timeoutDesc : String) (env : String → String → CmdOutcome) :
    Invoker := fun n p =>
  match invokeAgent timeoutDesc n (env n p) with
  | (r, none) => .ok r
  | (_, some e) => .error e

/-- A collaborator that always succeeds with output "ok". -/
def demoInvoker : Invoker := fun n _ =>
  Except.ok { agent := n, success := true, output := some "ok", error := "",
              exitCode := 0 }

/-- A fixture agent whose keyword matches "code-review". -/
def demoAgent1 : Agent := { name := "a1", description := "first", keywords := ["code-review"] }

/-- A fixture agent whose keyword matches "quality". -/
def demoAgent2 : Agent := { name := "a2", description := "second", keywords := ["quality"] }

/-- A collaborator under which agent "a1" reports failure (success = false,
no output) and every other agent succeeds with output "fine"; no
collaborator-level errors. -/
def demoMixInvoker : Invoker := fun n _ =>
  if n = "a1" then
    .ok { agent := "a1", success := false, output := none, error := "boom", exitCode := 1 }
  else
    .ok { agent := n, success := true, output := some "fine", error := "", exitCode := 0 }

/-- The two sequential clamping `if`s of `Evaluate` equal
`max 0 (min 10 ·)` (in tenths). -/
theorem seq_clamp_eq (x : ℤ) :
    (if 10 < (if x < 0 then 0 else x) then 10 else if x < 0 then 0 else x) =
      max 0 (min 10 x) := by
  rcases lt_or_le x 0 with h0 | h0
  · rw [if_pos h0]
    rw [if_neg (by norm_num)]
    rw [max_eq_left (by rw [min_le_iff]; right; exact h0.le)]
  · rw [if_neg (not_lt.mpr h0)]
    rcases lt_or_le 10 x with h1 | h1
    · rw [if_pos h1]
      rw [min_eq_left h1.le, max_eq_right (by norm_num)]
    · rw [if_neg (not_lt.mpr h1)]
      rw [min_eq_right h1, max_eq_right h0]

/-- The two sequential clamping `if`s equal `max 0 (min 10 ·)`. -/
theorem clampConfidence_eq (x : ℤ) : clampConfidence x = max 0 (min 10 x) := by
  unfold clampConfidence
  exact seq_clamp_eq x

/-- The pre-clamp update chain collapses to the closed formula. -/
theorem preClampConfidence_eq (T : List Char) :
    preClampConfidence T = rawConfidence T := by
  unfold preClampConfidence rawConfidence rawPenalties rawBonuses
  split_ifs <;> norm_num

/-- The sequential confidence updates collapse to the clamped closed
formula. -/
theorem confidenceSteps_eq (T : List Char) :
    confidenceSteps T = max 0 (min 10 (rawConfidence T)) := by
  rw [confidenceSteps, preClampConfidence_eq, clampConfidence_eq]

/-- On an input whose trimmed form is empty, `Evaluate` returns confidence 0
and leaves the refined prompt equal to the original input. -/
theorem evaluate_empty (ro : List DomainRule) (p : String)
    (h : goTrimSpace p.toList = []) :
    (evaluate ro p).confidence = 0 ∧ (evaluate ro p).refinedPrompt = p := by
  unfold evaluate
  rw [if_pos h]
  exact ⟨rfl, rfl⟩

/-- On an input with non-empty trimmed form `T`, the confidence of
`Evaluate` is the clamped `rawConfidence T`. -/
theorem evaluate_confidence (ro : List DomainRule) (p : String)
    (h : ¬ goTrimSpace p.toList = []) :
    (evaluate ro p).confidence =
      max 0 (min 10 (rawConfidence (goTrimSpace p.toList))) := by
  unfold evaluate
  rw [if_neg h]
  rw [← confidenceSteps_eq]
  split <;> rfl

/-! ## Chain executor lemmas -/

/-- The outcome list returned by `executeChain` extends the accumulator by
one outcome per collaborator call. -/
theorem executeChain_results_eq (inv : Invoker) (c : Nat → Bool) (base : String) :
    ∀ (agents : List Agent) (results ctxRes : List InvocationResult),
      ∃ tail,
        (executeChain inv c base agents results ctxRes).results = results ++ tail ∧
        tail.length = (executeChain inv c base agents results ctxRes).calls.length := by
  intro agents
  induction agents with
  | nil =>
    intro results ctxRes
    exact ⟨[], by simp [executeChain], by simp [executeChain]⟩
  | cons a rest ih =>
    intro results ctxRes
    by_cases hc : c results.length = true
    · exact ⟨[], by simp [executeChain, hc], by simp [executeChain, hc]⟩
    · obtain ⟨tail, ht1, ht2⟩ :=
        ih (results ++ [stepResult inv a.name (buildAgentPrompt base a ctxRes)])
          (if (stepResult inv a.name (buildAgentPrompt base a ctxRes)).success &&
              (stepResult inv a.name (buildAgentPrompt base a ctxRes)).output.isSome then
            ctxRes ++ [stepResult inv a.name (buildAgentPrompt base a ctxRes)]
          else ctxRes)
      refine ⟨stepResult inv a.name (buildAgentPrompt base a ctxRes) :: tail, ?_, ?_⟩
      · simp only [executeChain, hc, if_false, Bool.false_eq_true]
        rw [ht1]
        simp
      · simp only [executeChain, hc, if_false, Bool.false_eq_true]
        simpa using ht2

/-- `executeChain` returns either no error or the cancellation error —
never a not-found error. -/
theorem executeChain_err_cases (inv : Invoker) (c : Nat → Bool) (base : String) :
    ∀ (agents : List Agent) (results ctxRes : List InvocationResult),
      (executeChain inv c base agents results ctxRes).err = none ∨
      (executeChain inv c base agents results ctxRes).err = some OrchError.cancelled := by
  intro agents
  induction agents with
  | nil => intro results ctxRes; left; simp [executeChain]
  | cons a rest ih =>
    intro results ctxRes
    by_cases hc : c results.length = true
    · right; simp [executeChain, hc]
    · simp only [executeChain, hc, if_false, Bool.false_eq_true]
      exact ih _ _

/-- With no cancellation anywhere, `executeChain` finishes all steps: no
error, and exactly one outcome appended per agent (a failing step never
shortens the chain). -/
theorem executeChain_no_cancel (inv : Invoker) (c : Nat → Bool) (base : String)
    (hnc : ∀ k, c k = false) :
    ∀ (agents : List Agent) (results ctxRes : List InvocationResult),
      (executeChain inv c base agents results ctxRes).err = none ∧
      (executeChain inv c base agents results ctxRes).results.length =
        results.length + agents.length := by
  intro agents
  induction agents with
  | nil => intro results ctxRes; exact ⟨by simp [executeChain], by simp [executeChain]⟩
  | cons a rest ih =>
    intro results ctxRes
    have hc : ¬ c results.length = true := by simp [hnc]
    obtain ⟨ih1, ih2⟩ :=
      ih (results ++ [stepResult inv a.name (buildAgentPrompt base a ctxRes)])
        (if (stepResult inv a.name (buildAgentPrompt base a ctxRes)).success &&
            (stepResult inv a.name (buildAgentPrompt base a ctxRes)).output.isSome then
          ctxRes ++ [stepResult inv a.name (buildAgentPrompt base a ctxRes)]
        else ctxRes)
    constructor
    · simp only [executeChain, hc, if_false, Bool.false_eq_true]
      exact ih1
    · simp only [executeChain, hc, if_false, Bool.false_eq_true]
      rw [ih2]
      simp
      omega

/-- If cancellation is first observed at boundary `i` (no earlier boundary
from the current position sees it) and `i` falls inside the remaining
steps, `executeChain` stops there: cancellation error, exactly `i` outcomes,
and no synthesis (empty final output). -/
theorem executeChain_cancel_at (inv : Invoker) (c : Nat → Bool) (base : String) :
    ∀ (agents : List Agent) (results ctxRes : List InvocationResult) (i : Nat),
      c i = true →
      (∀ k, results.length ≤ k → k < i → c k = false) →
      results.length ≤ i →
      i - results.length < agents.length →
      (executeChain inv c base agents results ctxRes).err = some OrchError.cancelled ∧
      (executeChain inv c base agents results ctxRes).results.length = i ∧
      (executeChain inv c base agents results ctxRes).finalOutput = "" := by
  intro agents
  induction agents with
  | nil =>
    intro results ctxRes i _ _ _ h4
    simp at h4
  | cons a rest ih =>
    intro results ctxRes i h1 h2 h3 h4
    by_cases he : results.length = i
    · refine ⟨?_, ?_, ?_⟩ <;> simp [executeChain, he, h1]
    · have hlt : results.length < i := by omega
      have hc : ¬ c results.length = true := by
        rw [h2 results.length (le_refl _) hlt]; simp
      have := ih (results ++ [stepResult inv a.name (buildAgentPrompt base a ctxRes)])
        (if (stepResult inv a.name (buildAgentPrompt base a ctxRes)).success &&
            (stepResult inv a.name (buildAgentPrompt base a ctxRes)).output.isSome then
          ctxRes ++ [stepResult inv a.name (buildAgentPrompt base a ctxRes)]
        else ctxRes) i h1
        (by intro k hk1 hk2; exact h2 k (by simp at hk1; omega) hk2)
        (by simp; omega)
        (by simp at h4 ⊢; omega)
      refine ⟨?_, ?_, ?_⟩
      · simp only [executeChain, hc, if_false, Bool.false_eq_true]
        exact this.1
      · simp only [executeChain, hc, if_false, Bool.false_eq_true]
        exact this.2.1
      · simp only [executeChain, hc, if_false, Bool.false_eq_true]
        exact this.2.2

/-- Per-call specification of `executeChain`: provided the forwarded
context accumulator equals the successful-with-output subsequence of the
outcome accumulator (true at the call sites, where both are empty), the
k-th collaborator call addresses the k-th agent, its prompt is
`buildAgentPrompt` over exactly the successful-with-output prior outcomes,
and the k-th recorded outcome is the collaborator result, or the synthetic
failed outcome when the collaborator erred. -/
theorem executeChain_calls_spec (inv : Invoker) (c : Nat → Bool) (base : String) :
    ∀ (agents : List Agent) (results ctxRes : List InvocationResult),
      ctxRes = results.filter (fun r => r.success && r.output.isSome) →
      ∀ (k : Nat) (nm pr : String),
        (executeChain inv c base agents results ctxRes).calls[k]? = some (nm, pr) →
        ∃ a, agents[k]? = some a ∧ nm = a.name ∧
          pr = buildAgentPrompt base a
            (((executeChain inv c base agents results ctxRes).results.take
                (results.length + k)).filter (fun r => r.success && r.output.isSome)) ∧
          (executeChain inv c base agents results ctxRes).results[results.length + k]? =
            some (stepResult inv a.name pr) := by
  intro agents
  induction agents with
  | nil =>
    intro results ctxRes _ k nm pr hk
    simp [executeChain] at hk
  | cons a rest ih =>
    intro results ctxRes hctx k nm pr hk
    by_cases hc : c results.length = true
    · simp [executeChain, hc] at hk
    · obtain ⟨tail, htail, -⟩ :=
        executeChain_results_eq inv c base rest
          (results ++ [stepResult inv a.name (buildAgentPrompt base a ctxRes)])
          (if (stepResult inv a.name (buildAgentPrompt base a ctxRes)).success &&
              (stepResult inv a.name (buildAgentPrompt base a ctxRes)).output.isSome then
            ctxRes ++ [stepResult inv a.name (buildAgentPrompt base a ctxRes)]
          else ctxRes)
      match k with
      | 0 =>
        simp only [executeChain, hc, if_false, Bool.false_eq_true,
          List.getElem?_cons_zero, Option.some.injEq, Prod.mk.injEq] at hk
        obtain ⟨hnm, hpr⟩ := hk
        refine ⟨a, by simp, hnm.symm, ?_, ?_⟩
        · simp only [executeChain, hc, if_false, Bool.false_eq_true]
          rw [htail, Nat.add_zero, List.append_assoc, List.take_left, ← hctx, hpr]
        · simp only [executeChain, hc, if_false, Bool.false_eq_true]
          rw [htail, Nat.add_zero, List.append_assoc,
            List.getElem?_append_right (le_refl results.length)]
          simp [← hpr]
      | k + 1 =>
        simp only [executeChain, hc, if_false, Bool.false_eq_true,
          List.getElem?_cons_succ] at hk
        have hctx2 :
            (if (stepResult inv a.name (buildAgentPrompt base a ctxRes)).success &&
                (stepResult inv a.name (buildAgentPrompt base a ctxRes)).output.isSome then
              ctxRes ++ [stepResult inv a.name (buildAgentPrompt base a ctxRes)]
            else ctxRes) =
            (results ++ [stepResult inv a.name (buildAgentPrompt base a ctxRes)]).filter
              (fun r => r.success && r.output.isSome) := by
          rw [List.filter_append, ← hctx]
          by_cases hP : ((stepResult inv a.name (buildAgentPrompt base a ctxRes)).success &&
              (stepResult inv a.name (buildAgentPrompt base a ctxRes)).output.isSome) = true
          · simp [hP]
          · simp [hP]
        obtain ⟨a2, ha2, hnm, hpr, hres⟩ := ih _ _ hctx2 k nm pr hk
        have hlen : (results ++ [stepResult inv a.name (buildAgentPrompt base a ctxRes)]).length + k
            = results.length + (k + 1) := by simp; omega
        refine ⟨a2, by simpa using ha2, hnm, ?_, ?_⟩
        · simp only [executeChain, hc, if_false, Bool.false_eq_true]
          rw [hpr, hlen]
        · simp only [executeChain, hc, if_false, Bool.false_eq_true]
          rw [← hlen]
          exact hres

/-- If the collaborator only reports success together with a non-nil
output, every outcome `executeChain` records satisfies the same invariant
(synthetic failure outcomes have success = false). -/
theorem executeChain_success_isSome (inv : Invoker) (c : Nat → Bool) (base : String)
    (hinv : ∀ n p r, inv n p = .ok r → r.success = true → r.output.isSome = true) :
    ∀ (agents : List Agent) (results ctxRes : List InvocationResult),
      (∀ r ∈ results, r.success = true → r.output.isSome = true) →
      ∀ r ∈ (executeChain inv c base agents results ctxRes).results,
        r.success = true → r.output.isSome = true := by
  intro agents
  induction agents with
  | nil =>
    intro results ctxRes hres r hr
    simp only [executeChain] at hr
    exact hres r hr
  | cons a rest ih =>
    intro results ctxRes hres r hr
    by_cases hc : c results.length = true
    · simp only [executeChain, hc, if_true] at hr
      exact hres r hr
    · simp only [executeChain, hc, if_false, Bool.false_eq_true] at hr
      refine ih _ _ ?_ r hr
      intro r2 hr2
      rcases List.mem_append.mp hr2 with h2 | h2
      · exact hres r2 h2
      · have hr2' : r2 = stepResult inv a.name (buildAgentPrompt base a ctxRes) := by
          simpa using h2
        subst hr2'
        unfold stepResult
        cases hcall : inv a.name (buildAgentPrompt base a ctxRes) with
        | ok r3 => exact hinv _ _ r3 hcall
        | error e => intro hfalse; simp at hfalse

/-- On a list where success implies a present output, filtering by
"success and output present" equals filtering by success alone. -/
theorem filter_success_and_output (l : List InvocationResult)
    (h : ∀ r ∈ l, r.success = true → r.output.isSome = true) :
    l.filter (fun r => r.success && r.output.isSome) =
      l.filter (fun r => r.success) := by
  induction l with
  | nil => rfl
  | cons r rest ih =>
    have hr := h r (List.mem_cons_self r rest)
    have hrest := fun r2 hr2 => h r2 (List.mem_cons_of_mem r hr2)
    by_cases hs : r.success = true
    · simp [List.filter_cons, hs, hr hs, ih hrest]
    · simp only [Bool.not_eq_true] at hs
      simp [List.filter_cons, hs, ih hrest]

/-- `executeChain` only consults the collaborator pointwise: pointwise
equal collaborators produce identical executions. -/
theorem executeChain_congr (inv inv2 : Invoker) (c : Nat → Bool) (base : String)
    (h : ∀ n p, inv n p = inv2 n p) :
    ∀ (agents : List Agent) (results ctxRes : List InvocationResult),
      executeChain inv c base agents results ctxRes =
        executeChain inv2 c base agents results ctxRes := by
  intro agents
  induction agents with
  | nil => intro results ctxRes; simp [executeChain]
  | cons a rest ih =>
    intro results ctxRes
    by_cases hc : c results.length = true
    · simp [executeChain, hc]
    · have hstep : stepResult inv a.name (buildAgentPrompt base a ctxRes) =
          stepResult inv2 a.name (buildAgentPrompt base a ctxRes) := by
        unfold stepResult
        rw [h]
      simp only [executeChain, hc, if_false, Bool.false_eq_true, hstep, ih]

/-! ## Claim C7 -/

/-- C7: for every input whose trimmed form is non-empty, `Evaluate` computes
confidence as 0.7 minus 0.2 for each fired penalty (short length, low word
count, vagueness — the latter applied at most once) plus 0.1 for each fired
bonus (file token, function token, action verb), clamped to [0, 1]; and for
every input whatsoever the returned confidence lies in [0, 1].  Confidence
is in exact tenths: 7 is 0.7, the clamp bounds 0 and 10 are 0.0 and 1.0. -/
theorem C7_confidence_formula_and_bounds (ro : List DomainRule) (p : String) :
    (goTrimSpace p.toList ≠ [] →
      (evaluate ro p).confidence =
        max 0 (min 10 (7 - rawPenalties (goTrimSpace p.toList)
          + rawBonuses (goTrimSpace p.toList)))) ∧
    0 ≤ (evaluate ro p).confidence ∧ (evaluate ro p).confidence ≤ 10 := by
  by_cases h : goTrimSpace p.toList = []
  · obtain ⟨hc, _⟩ := evaluate_empty ro p h
    exact ⟨fun h2 => absurd h h2, by rw [hc], by rw [hc]; norm_num⟩
  · have hc := evaluate_confidence ro p h
    refine ⟨fun _ => by rw [hc]; rfl, ?_, ?_⟩
    · rw [hc]; exact le_max_left 0 _
    · rw [hc]
      exact max_le (by norm_num) (min_le_left 10 _)

/-- Witness for C7 at the concrete prompt "hi" (trimmed form non-empty). -/
theorem C7_witness :
    (evaluate domainRules "hi").confidence =
      max 0 (min 10 (7 - rawPenalties (goTrimSpace "hi".toList)
        + rawBonuses (goTrimSpace "hi".toList))) :=
  (C7_confidence_formula_and_bounds domainRules "hi").1 (by decide)

/-! ## Claim C2 -/

/-- C2: the claimed stable tie-break fails on the code.  With registration
order A, B, C where A and B each match one input keyword (score 2.0) and C
matches two (score 4.0), `MatchKeywords` returns [C, B, A]: the manual
quadratic exchange sort swaps A past B while hoisting C, so the equal-score
capabilities A, B do NOT preserve their registration order (a stable sort
would yield [C, A, B]). -/
theorem C2_matchKeywords_not_stable :
    (matchKeywords
        [{ name := "A", description := "", keywords := ["a"] },
         { name := "B", description := "", keywords := ["b"] },
         { name := "C", description := "", keywords := ["c", "d"] }]
        ["a", "b", "c", "d"]).map Agent.name = ["C", "B", "A"] ∧
    (["C", "B", "A"] : List String) ≠ ["C", "A", "B"] := by
  exact ⟨by decide, by decide⟩

/-! ## Claim C3 -/

/-- C3: order-determinism of `ExtractKeywords` fails on the code.  The Go
function ranges over the `domainKeywords` map, whose iteration order is
unspecified and randomized; under two iteration orders of the very same
rules (a rotation is a permutation), the input "review the tests" — which
matches both the code-quality and the testing rule — produces differently
ordered keyword lists. -/
theorem C3_extractKeywords_depends_on_map_order :
    (domainRules.drop 1 ++ domainRules.take 1).Perm domainRules ∧
    extractKeywordsWith domainRules "review the tests" ≠
      extractKeywordsWith (domainRules.drop 1 ++ domainRules.take 1)
        "review the tests" := by
  constructor
  · have h : domainRules.take 1 ++ domainRules.drop 1 = domainRules :=
      List.take_append_drop 1 domainRules
    exact List.perm_append_comm.trans (h ▸ List.Perm.refl domainRules)
  · decide

/-! ## Claim C9 -/

/-- C9, counterexample to the claimed bound: `runAutomatic("Fix the thing")`
does judge the prompt unclear, but its confidence is NOT ≤ 0.5 (it is 0.6:
0.7 − 0.2 for the vagueness match on "thing" + 0.1 for the action verb
"fix").  In exact tenths: the claimed bound 0.5 is 5. -/
theorem C9_counterexample :
    (runWithAuto domainRules domainRules [] demoInvoker (fun _ => false)
        "Fix the thing").1.evaluationFeedback.isClear = false ∧
    ¬ ((runWithAuto domainRules domainRules [] demoInvoker (fun _ => false)
        "Fix the thing").1.evaluationFeedback.confidence ≤ 5) := by
  exact ⟨by decide, by decide⟩

/-- C9 as amended: `runAutomatic("Fix the thing")` yields isClear = false,
confidence = 0.6 (= 6 in exact tenths; not ≤ 0.5), and a refined prompt
that differs from the input (the vague-branch suffix is appended). -/
theorem C9_amended :
    (runWithAuto domainRules domainRules [] demoInvoker (fun _ => false)
        "Fix the thing").1.evaluationFeedback.isClear = false ∧
    (runWithAuto domainRules domainRules [] demoInvoker (fun _ => false)
        "Fix the thing").1.evaluationFeedback.confidence = 6 ∧
    (runWithAuto domainRules domainRules [] demoInvoker (fun _ => false)
        "Fix the thing").1.refinedPrompt =
      "Fix the thing for correctness and best practices" ∧
    (runWithAuto domainRules domainRules [] demoInvoker (fun _ => false)
        "Fix the thing").1.refinedPrompt ≠ "Fix the thing" := by
  exact ⟨by decide, by decide, by decide, by decide⟩

/-! ## Name resolution lemmas -/

/-- If the resolution loop of `RunWithExplicitChain` fails with name `n`,
then `n` is one of the requested names and its lookup fails. -/
theorem resolveAgents_error_spec (reg : Registry) :
    ∀ (names : List String) (n : String),
      resolveAgents reg names = .error n →
      n ∈ names ∧ registryGet reg n = none := by
  intro names
  induction names with
  | nil => intro n h; simp [resolveAgents] at h
  | cons m ms ih =>
    intro n h
    cases hg : registryGet reg m with
    | none =>
      simp only [resolveAgents, hg, Except.error.injEq] at h
      subst h
      exact ⟨List.mem_cons_self m ms, hg⟩
    | some a =>
      simp only [resolveAgents, hg] at h
      cases hr : resolveAgents reg ms with
      | error n2 =>
        simp only [hr, Except.error.injEq] at h
        subst h
        obtain ⟨h1, h2⟩ := ih _ hr
        exact ⟨List.mem_cons_of_mem m h1, h2⟩
      | ok l => simp [hr] at h

/-- If the resolution loop succeeds, every requested name resolves. -/
theorem resolveAgents_ok_spec (reg : Registry) :
    ∀ (names : List String) (l : List Agent),
      resolveAgents reg names = .ok l →
      ∀ n ∈ names, registryGet reg n ≠ none := by
  intro names
  induction names with
  | nil => intro l _ n hn; simp at hn
  | cons m ms ih =>
    intro l h n hn
    cases hg : registryGet reg m with
    | none => simp [resolveAgents, hg] at h
    | some a =>
      simp only [resolveAgents, hg] at h
      cases hr : resolveAgents reg ms with
      | error n2 => simp [hr] at h
      | ok l2 =>
        rcases List.mem_cons.mp hn with h2 | h2
        · subst h2; rw [hg]; simp
        · exact ih l2 hr n h2

/-! ## Claim C1 -/

/-- C1 as amended: when upstream cancellation is first observed at the step
boundary after `i` outcomes have been recorded (with `i` inside the chain),
the executor stops scheduling further steps and returns a cancellation
error, but it does NOT synthesize (its final output is empty), and although
its own outcome list has length `i`, the public run operation discards it
on the error path: the caller's report carries no outcomes and no final
output. -/
theorem C1_amended_cancellation :
    (∀ (inv : Invoker) (c : Nat → Bool) (base : String) (agents : List Agent)
        (i : Nat),
      c i = true → (∀ k, k < i → c k = false) → i < agents.length →
      (executeChain inv c base agents [] []).err = some OrchError.cancelled ∧
      (executeChain inv c base agents [] []).results.length = i ∧
      (executeChain inv c base agents [] []).finalOutput = "") ∧
    (∀ (roEval roSel : List DomainRule) (reg : Registry) (inv : Invoker)
        (c : Nat → Bool) (p : String) (e : OrchError),
      (runWithAuto roEval roSel reg inv c p).2.1 = some e →
      (runWithAuto roEval roSel reg inv c p).1.agentResults = [] ∧
      (runWithAuto roEval roSel reg inv c p).1.finalOutput = "") := by
  constructor
  · intro inv c base agents i h1 h2 h3
    exact executeChain_cancel_at inv c base agents [] [] i h1
      (fun k _ hk => h2 k hk) (by simp) (by simpa using h3)
  · intro roEval roSel reg inv c p e
    simp only [runWithAuto]
    split
    · intro _; exact ⟨rfl, rfl⟩
    · intro h; simp at h

/-- C1, counterexample to the claim as stated: a two-agent automatic run
under an invoker that always succeeds, with cancellation first observed at
boundary 1.  Exactly one collaborator call was made (so one outcome was
recorded before cancellation), the caller receives the cancellation error —
but the returned report contains zero outcomes, not the claimed partial
outcomes of length 1. -/
theorem C1_counterexample :
    (runWithAuto domainRules domainRules [demoAgent1, demoAgent2] demoInvoker
        (fun k => decide (1 ≤ k)) "Review the code").2.1 =
      some OrchError.cancelled ∧
    (runWithAuto domainRules domainRules [demoAgent1, demoAgent2] demoInvoker
        (fun k => decide (1 ≤ k)) "Review the code").2.2.length = 1 ∧
    (runWithAuto domainRules domainRules [demoAgent1, demoAgent2] demoInvoker
        (fun k => decide (1 ≤ k)) "Review the code").1.agentResults = [] := by
  exact ⟨by decide, by decide, by decide⟩

/-- Witness for the amended C1 at a concrete chain: two agents, invoker
always succeeding, cancellation first observed at boundary 1. -/
theorem C1_witness :
    (executeChain demoInvoker (fun k => decide (1 ≤ k)) "Review the code"
        [demoAgent1, demoAgent2] [] []).err = some OrchError.cancelled ∧
    (executeChain demoInvoker (fun k => decide (1 ≤ k)) "Review the code"
        [demoAgent1, demoAgent2] [] []).results.length = 1 ∧
    (executeChain demoInvoker (fun k => decide (1 ≤ k)) "Review the code"
        [demoAgent1, demoAgent2] [] []).finalOutput = "" :=
  C1_amended_cancellation.1 demoInvoker (fun k => decide (1 ≤ k))
    "Review the code" [demoAgent1, demoAgent2] 1 (by decide)
    (by intro k hk; interval_cases k; decide) (by decide)

/-! ## Claim C4 -/

/-- C4: under a collaborator that populates an output whenever it reports
success (true of the CLI invoker), the k-th augmented prompt of a chain
execution is the base prompt plus the identity preamble, followed by a
forwarded-results block if and only if some prior recorded outcome was
successful; the block enumerates exactly the successful prior outcomes in
execution order (failed ones never appear). -/
theorem C4_forwarded_context (inv : Invoker) (c : Nat → Bool) (base : String)
    (agents : List Agent)
    (hinv : ∀ n p r, inv n p = .ok r → r.success = true → r.output.isSome = true)
    (k : Nat) (nm pr : String)
    (hk : (executeChain inv c base agents [] []).calls[k]? = some (nm, pr)) :
    ∃ a, agents[k]? = some a ∧ nm = a.name ∧
      ((((executeChain inv c base agents [] []).results.take k).filter
          (fun r => r.success)) = [] → pr = identitySegment base a) ∧
      ((((executeChain inv c base agents [] []).results.take k).filter
          (fun r => r.success)) ≠ [] →
        pr = identitySegment base a ++
          forwardSegment (((executeChain inv c base agents [] []).results.take k).filter
            (fun r => r.success))) := by
  obtain ⟨a, ha, hnm, hpr, -⟩ :=
    executeChain_calls_spec inv c base agents [] [] (by simp) k nm pr hk
  have hzk : List.length ([] : List InvocationResult) + k = k := by simp
  rw [hzk] at hpr
  have hfl : ((executeChain inv c base agents [] []).results.take k).filter
      (fun r => r.success && r.output.isSome) =
      ((executeChain inv c base agents [] []).results.take k).filter
        (fun r => r.success) := by
    apply filter_success_and_output
    intro r hr hs
    exact executeChain_success_isSome inv c base hinv agents [] [] (by simp) r
      (List.take_subset k _ hr) hs
  rw [hfl] at hpr
  refine ⟨a, ha, hnm, ?_, ?_⟩
  · intro hempty
    rw [hpr, buildAgentPrompt, hempty]
    simp
  · intro hne
    rw [hpr, buildAgentPrompt]
    have : 0 < (((executeChain inv c base agents [] []).results.take k).filter
        (fun r => r.success)).length := List.length_pos.mpr hne
    rw [if_pos this]

/-- Witness for C4 at the spec's concrete example: a two-capability chain
where step 1 fails and step 2 succeeds.  The report has 2 outcomes with one
success ("Successful Executions: 1" in the synthesis), no prior successful
outcome exists before step 2, and — applying `C4_forwarded_context` — its
augmented prompt is exactly the identity preamble with no forwarded-results
block. -/
theorem C4_witness :
    ((executeChain demoMixInvoker (fun _ => false) "base"
        [demoAgent1, demoAgent2] [] []).results.length = 2 ∧
     (executeChain demoMixInvoker (fun _ => false) "base"
        [demoAgent1, demoAgent2] [] []).results.countP (fun r => r.success) = 1 ∧
     ((executeChain demoMixInvoker (fun _ => false) "base"
        [demoAgent1, demoAgent2] [] []).results.take 1).filter
          (fun r => r.success) = []) ∧
    (∃ a, ([demoAgent1, demoAgent2] : List Agent)[1]? = some a ∧
      "a2" = a.name ∧
      ((((executeChain demoMixInvoker (fun _ => false) "base"
          [demoAgent1, demoAgent2] [] []).results.take 1).filter
            (fun r => r.success)) = [] →
        buildAgentPrompt "base" demoAgent2 [] = identitySegment "base" a) ∧
      ((((executeChain demoMixInvoker (fun _ => false) "base"
          [demoAgent1, demoAgent2] [] []).results.take 1).filter
            (fun r => r.success)) ≠ [] →
        buildAgentPrompt "base" demoAgent2 [] = identitySegment "base" a ++
          forwardSegment (((executeChain demoMixInvoker (fun _ => false) "base"
            [demoAgent1, demoAgent2] [] []).results.take 1).filter
              (fun r => r.success)))) := by
  constructor
  · exact ⟨by decide, by decide, by decide⟩
  · exact C4_forwarded_context demoMixInvoker (fun _ => false) "base"
      [demoAgent1, demoAgent2]
      (by
        intro n p r h hs
        unfold demoMixInvoker at h
        split at h
        · cases h; simp at hs
        · cases h; simp)
      1 "a2" (buildAgentPrompt "base" demoAgent2 []) (by decide)

/-! ## Claim C5 -/

/-- C5: a collaborator-level failure at the k-th step is recorded as the
synthetic failed outcome (success = false, the collaborator's error text,
exit status 1) at position k of the outcome list; without cancellation the
chain always runs every step regardless of failures; the executor itself
can only return the cancellation error; and the public run operations
return, besides success, only a cancellation error (`runAutomatic`) or a
cancellation or not-found error (`runExplicit`). -/
theorem C5_failure_containment :
    (∀ (inv : Invoker) (c : Nat → Bool) (base : String) (agents : List Agent)
        (k : Nat) (nm pr e : String),
      (executeChain inv c base agents [] []).calls[k]? = some (nm, pr) →
      inv nm pr = .error e →
      (executeChain inv c base agents [] []).results[k]? =
        some { agent := nm, success := false, output := none, error := e,
               exitCode := 1 }) ∧
    (∀ (inv : Invoker) (c : Nat → Bool) (base : String) (agents : List Agent),
      (∀ k, c k = false) →
      (executeChain inv c base agents [] []).err = none ∧
      (executeChain inv c base agents [] []).results.length = agents.length) ∧
    (∀ (inv : Invoker) (c : Nat → Bool) (base : String) (agents : List Agent)
        (results ctxRes : List InvocationResult),
      (executeChain inv c base agents results ctxRes).err = none ∨
      (executeChain inv c base agents results ctxRes).err =
        some OrchError.cancelled) ∧
    (∀ (roEval roSel : List DomainRule) (reg : Registry) (inv : Invoker)
        (c : Nat → Bool) (p : String),
      (runWithAuto roEval roSel reg inv c p).2.1 = none ∨
      (runWithAuto roEval roSel reg inv c p).2.1 = some OrchError.cancelled) ∧
    (∀ (roEval : List DomainRule) (reg : Registry) (inv : Invoker)
        (c : Nat → Bool) (p : String) (names : List String),
      (runWithExplicitChain roEval reg inv c p names).2.1 = none ∨
      (runWithExplicitChain roEval reg inv c p names).2.1 =
        some OrchError.cancelled ∨
      ∃ n, (runWithExplicitChain roEval reg inv c p names).2.1 =
          some (OrchError.notFound n) ∧
        registryGet reg n = none ∧ n ∈ names) := by
  refine ⟨?_, ?_, ?_, ?_, ?_⟩
  · intro inv c base agents k nm pr e hk herr
    obtain ⟨a, ha, hnm, hpr, hres⟩ :=
      executeChain_calls_spec inv c base agents [] [] (by simp) k nm pr hk
    have hzk : List.length ([] : List InvocationResult) + k = k := by simp
    rw [hzk] at hres
    rw [hres]
    subst hnm
    unfold stepResult
    rw [herr]
  · intro inv c base agents hnc
    have h := executeChain_no_cancel inv c base hnc agents [] []
    exact ⟨h.1, by simpa using h.2⟩
  · exact executeChain_err_cases
  · intro roEval roSel reg inv c p
    simp only [runWithAuto]
    split
    · rename_i e heq
      rcases executeChain_err_cases inv c
          (evaluate roEval p).refinedPrompt _ [] [] with h | h
      · rw [heq] at h; cases h
      · rw [heq] at h
        right
        simpa using h
    · left; rfl
  · intro roEval reg inv c p names
    simp only [runWithExplicitChain]
    split
    · rename_i n heq
      obtain ⟨h1, h2⟩ := resolveAgents_error_spec reg names n heq
      right; right
      exact ⟨n, rfl, h2, h1⟩
    · split
      · rename_i e heq
        rcases executeChain_err_cases inv c p _ [] [] with h | h
        · rw [heq] at h; cases h
        · rw [heq] at h
          right; left
          simpa using h
      · left; rfl

/-- Witness for C5 at concrete inputs: a collaborator that errs on agent
"a1" yields the synthetic outcome at position 0 while the chain continues
to record both outcomes; the other conjuncts instantiated concretely. -/
theorem C5_witness :
    (executeChain (fun n _ => if n = "a1" then .error "spawn failed"
        else demoInvoker n "") (fun _ => false) "base"
        [demoAgent1, demoAgent2] [] []).results[0]? =
      some { agent := "a1", success := false, output := none,
             error := "spawn failed", exitCode := 1 } ∧
    ((executeChain (fun n _ => if n = "a1" then .error "spawn failed"
        else demoInvoker n "") (fun _ => false) "base"
        [demoAgent1, demoAgent2] [] []).err = none ∧
     (executeChain (fun n _ => if n = "a1" then .error "spawn failed"
        else demoInvoker n "") (fun _ => false) "base"
        [demoAgent1, demoAgent2] [] []).results.length = 2) ∧
    ((runWithExplicitChain domainRules [demoAgent1] demoInvoker (fun _ => false)
        "p" ["a1"]).2.1 = none ∨
     (runWithExplicitChain domainRules [demoAgent1] demoInvoker (fun _ => false)
        "p" ["a1"]).2.1 = some OrchError.cancelled ∨
     ∃ n, (runWithExplicitChain domainRules [demoAgent1] demoInvoker
          (fun _ => false) "p" ["a1"]).2.1 = some (OrchError.notFound n) ∧
        registryGet [demoAgent1] n = none ∧ n ∈ ["a1"]) := by
  refine ⟨?_, ?_, ?_⟩
  · exact C5_failure_containment.1
      (fun n _ => if n = "a1" then .error "spawn failed" else demoInvoker n "")
      (fun _ => false) "base" [demoAgent1, demoAgent2] 0 "a1"
      (buildAgentPrompt "base" demoAgent1 []) "spawn failed" (by decide) (by simp)
  · exact C5_failure_containment.2.1
      (fun n _ => if n = "a1" then .error "spawn failed" else demoInvoker n "")
      (fun _ => false) "base" [demoAgent1, demoAgent2] (fun _ => rfl)
  · exact C5_failure_containment.2.2.2.2 domainRules [demoAgent1] demoInvoker
      (fun _ => false) "p" ["a1"]

/-! ## Claim C6 -/

/-- C6: whenever the explicit-chain operation is given a name list
containing at least one name absent from the registry, it returns a
not-found error for the first such unresolved name, performs zero
collaborator invocations (including for the names that do resolve),
and the report carries no outcomes. -/
theorem C6_explicit_not_found (roEval : List DomainRule) (reg : Registry)
    (inv : Invoker) (c : Nat → Bool) (p : String) (names : List String)
    (h : ∃ n ∈ names, registryGet reg n = none) :
    (∃ m ∈ names, registryGet reg m = none ∧
      (runWithExplicitChain roEval reg inv c p names).2.1 =
        some (OrchError.notFound m)) ∧
    (runWithExplicitChain roEval reg inv c p names).2.2 = [] ∧
    (runWithExplicitChain roEval reg inv c p names).1.agentResults = [] := by
  obtain ⟨n, hn, hget⟩ := h
  cases hres : resolveAgents reg names with
  | ok l => exact absurd hget (resolveAgents_ok_spec reg names l hres n hn)
  | error m =>
    obtain ⟨hm1, hm2⟩ := resolveAgents_error_spec reg names m hres
    refine ⟨⟨m, hm1, hm2, ?_⟩, ?_, ?_⟩ <;>
      simp [runWithExplicitChain, hres]

/-- Witness for C6: registry holding only "a1", explicit chain
["a1", "nope"] — "nope" is unresolved, so the run fails with not-found and
makes zero collaborator calls even though "a1" resolves. -/
theorem C6_witness :
    (∃ m ∈ ["a1", "nope"], registryGet [demoAgent1] m = none ∧
      (runWithExplicitChain domainRules [demoAgent1] demoInvoker (fun _ => false)
        "p" ["a1", "nope"]).2.1 = some (OrchError.notFound m)) ∧
    (runWithExplicitChain domainRules [demoAgent1] demoInvoker (fun _ => false)
      "p" ["a1", "nope"]).2.2 = [] ∧
    (runWithExplicitChain domainRules [demoAgent1] demoInvoker (fun _ => false)
      "p" ["a1", "nope"]).1.agentResults = [] :=
  C6_explicit_not_found domainRules [demoAgent1] demoInvoker (fun _ => false)
    "p" ["a1", "nope"] (by decide)

/-! ## Claim C10 -/

/-- C10: `InvokeAgent` always returns a nil Go error; every failure mode,
including the command not running at all, is materialized as a result with
success = false and a non-empty error text (given the Go error's message is
non-empty, as `exec` errors are); consequently, driving `executeChain` with
this invoker is identical to driving it with one that never reports a
collaborator error, i.e. the orchestrator's collaborator-error conversion
branch is never taken. -/
theorem C10_invoker_nil_error :
    (∀ (timeoutDesc agentName : String) (o : CmdOutcome),
      (invokeAgent timeoutDesc agentName o).2 = none) ∧
    (∀ (timeoutDesc agentName : String) (o : CmdOutcome) (ec : Option Int)
        (msg : String),
      o.runError = some (ec, msg) → msg ≠ "" →
      (invokeAgent timeoutDesc agentName o).1.success = false ∧
      (invokeAgent timeoutDesc agentName o).1.error ≠ "") ∧
    (∀ (timeoutDesc : String) (env : String → String → CmdOutcome)
        (c : Nat → Bool) (base : String) (agents : List Agent)
        (results ctxRes : List InvocationResult),
      executeChain (invokerOfCLI timeoutDesc env) c base agents results ctxRes =
        executeChain (fun n p => Except.ok (invokeAgent timeoutDesc n (env n p)).1)
          c base agents results ctxRes) := by
  refine ⟨?_, ?_, ?_⟩
  · intro timeoutDesc agentName o
    rfl
  · intro timeoutDesc agentName o ec msg hrun hmsg
    constructor
    · simp [invokeAgent, hrun]
    · simp only [invokeAgent, hrun]
      by_cases ht : o.timedOut = true
      · simp only [ht, if_true]
        intro heq
        have hdata := congrArg String.data heq
        rw [String.data_append] at hdata
        have := List.append_eq_nil.mp hdata
        simp at this
      · simp only [ht]
        by_cases hs : o.stderr = ""
        · simp [hs, hmsg]
        · simp [hs]
  · intro timeoutDesc env c base agents results ctxRes
    apply executeChain_congr
    intro n p
    rfl

/-- Witness for C10 at a concrete command outcome: the CLI binary missing
entirely (no exit code, non-empty error message, nothing on stdout). -/
theorem C10_witness :
    (invokeAgent "30s" "code-reviewer"
      { stdout := "", stderr := "", runError := some (none, "exec: copilot: executable file not found"),
        timedOut := false }).2 = none ∧
    (invokeAgent "30s" "code-reviewer"
      { stdout := "", stderr := "", runError := some (none, "exec: copilot: executable file not found"),
        timedOut := false }).1.success = false ∧
    (invokeAgent "30s" "code-reviewer"
      { stdout := "", stderr := "", runError := some (none, "exec: copilot: executable file not found"),
        timedOut := false }).1.error ≠ "" := by
  refine ⟨C10_invoker_nil_error.1 "30s" "code-reviewer" _, ?_⟩
  have h := C10_invoker_nil_error.2.1 "30s" "code-reviewer"
    { stdout := "", stderr := "", runError := some (none, "exec: copilot: executable file not found"),
      timedOut := false } none "exec: copilot: executable file not found" rfl
    (by decide)
  exact h

/-! ## String lemmas towards claim C8 -/

/-- The empty pattern occurs in every string. -/
theorem containsSub_nil_pat (s : List Char) : containsSub s [] = true := by
  cases s <;> simp [containsSub, List.isPrefixOf]

/-- Substring containment is preserved by appending on the right. -/
theorem containsSub_append_right (s t pat : List Char)
    (h : containsSub s pat = true) : containsSub (s ++ t) pat = true := by
  induction s with
  | nil =>
    have hpat : pat = [] := by
      cases pat with
      | nil => rfl
      | cons c cs => simp [containsSub, List.isPrefixOf] at h
    subst hpat
    simpa using containsSub_nil_pat t
  | cons c rest ih =>
    simp only [containsSub, Bool.or_eq_true] at h
    rcases h with h | h
    · have hp : pat <+: c :: rest := List.isPrefixOf_iff_prefix.mp h
      have hp2 : pat <+: (c :: rest) ++ t := hp.trans (List.prefix_append _ _)
      simp only [List.cons_append, containsSub, Bool.or_eq_true]
      left
      exact List.isPrefixOf_iff_prefix.mpr (by simpa using hp2)
    · simp only [List.cons_append, containsSub, Bool.or_eq_true]
      right
      exact ih h

/-- `containsActionVerb` is preserved by appending on the right. -/
theorem containsActionVerb_append (T zs : List Char)
    (h : containsActionVerb T = true) : containsActionVerb (T ++ zs) = true := by
  unfold containsActionVerb at h ⊢
  rw [List.map_append]
  rcases List.any_eq_true.mp h with ⟨v, hv, hc⟩
  exact List.any_eq_true.mpr ⟨v, hv, containsSub_append_right _ _ _ hc⟩

/-- Byte length is additive over concatenation. -/
theorem utf8Len_append (a b : List Char) :
    utf8Len (a ++ b) = utf8Len a + utf8Len b := by
  unfold utf8Len
  rw [List.map_append, List.sum_append]

/-- Splitting the field count at an explicit space separator. -/
theorem countFieldsAux_append (xs : List Char) :
    ∀ (b : Bool) (zs : List Char),
      countFieldsAux b (xs ++ ' ' :: zs) =
        countFieldsAux b xs + countFieldsAux true zs := by
  induction xs with
  | nil =>
    intro b zs
    simp [countFieldsAux, show isGoSpace ' ' = true from rfl]
  | cons c rest ih =>
    intro b zs
    simp only [List.cons_append, countFieldsAux]
    rw [show List.append rest (' ' :: zs) = rest ++ ' ' :: zs from rfl, ih,
      Nat.add_assoc]

/-- The head of a `dropWhile` result fails the predicate. -/
theorem dropWhile_head_false (q : Char → Bool) :
    ∀ (l : List Char) (c : Char) (rest : List Char),
      l.dropWhile q = c :: rest → q c = false := by
  intro l
  induction l with
  | nil => intro c rest h; simp at h
  | cons a as ih =>
    intro c rest h
    by_cases ha : q a = true
    · rw [List.dropWhile_cons, if_pos ha] at h
      exact ih c rest h
    · rw [List.dropWhile_cons, if_neg ha] at h
      cases h
      simpa using ha

/-- `strings.TrimSpace` fixes any string whose two ends are not spaces. -/
theorem goTrimSpace_eq_self (l : List Char)
    (h1 : ∀ c, l.head? = some c → isGoSpace c = false)
    (h2 : ∀ c, l.getLast? = some c → isGoSpace c = false) :
    goTrimSpace l = l := by
  cases l with
  | nil => rfl
  | cons a as =>
    have ha : isGoSpace a = false := h1 a rfl
    have step1 : List.dropWhile isGoSpace (a :: as) = a :: as := by
      rw [List.dropWhile_cons, if_neg (by simp [ha])]
    cases hrev : (a :: as).reverse with
    | nil => simp at hrev
    | cons d ds =>
      have hd : (a :: as).getLast? = some d := by
        rw [← List.head?_reverse, hrev]
        rfl
      have hds : isGoSpace d = false := h2 d hd
      have step2 : List.dropWhile isGoSpace (d :: ds) = d :: ds := by
        rw [List.dropWhile_cons, if_neg (by simp [hds])]
      unfold goTrimSpace
      rw [step1, hrev, step2, ← hrev, List.reverse_reverse]

/-- The first character of a trimmed string is not a space. -/
theorem goTrimSpace_head_not_space (l : List Char) :
    ∀ c, (goTrimSpace l).head? = some c → isGoSpace c = false := by
  intro c hc
  unfold goTrimSpace at hc
  rw [List.head?_reverse] at hc
  have hvne : (l.dropWhile isGoSpace).reverse.dropWhile isGoSpace ≠ [] := by
    intro h
    rw [h] at hc
    simp at hc
  obtain ⟨t, ht⟩ := List.dropWhile_suffix
    (l := (l.dropWhile isGoSpace).reverse) (p := isGoSpace)
  have hlast : (l.dropWhile isGoSpace).reverse.getLast? = some c := by
    rw [← ht, List.getLast?_append_of_ne_nil _ hvne]
    exact hc
  rw [List.getLast?_reverse] at hlast
  cases hu : l.dropWhile isGoSpace with
  | nil => rw [hu] at hlast; simp at hlast
  | cons d ds =>
    rw [hu] at hlast
    simp only [List.head?_cons, Option.some.injEq] at hlast
    subst hlast
    exact dropWhile_head_false _ l _ _ hu

/-- The last character of a trimmed string is not a space. -/
theorem goTrimSpace_getLast_not_space (l : List Char) :
    ∀ c, (goTrimSpace l).getLast? = some c → isGoSpace c = false := by
  intro c hc
  unfold goTrimSpace at hc
  rw [List.getLast?_reverse] at hc
  cases hv : (l.dropWhile isGoSpace).reverse.dropWhile isGoSpace with
  | nil => rw [hv] at hc; simp at hc
  | cons d ds =>
    rw [hv] at hc
    simp only [List.head?_cons, Option.some.injEq] at hc
    subst hc
    exact dropWhile_head_false _ _ _ _ hv

/-- `strings.TrimSpace` is idempotent. -/
theorem goTrimSpace_idem (l : List Char) :
    goTrimSpace (goTrimSpace l) = goTrimSpace l :=
  goTrimSpace_eq_self _ (goTrimSpace_head_not_space l)
    (goTrimSpace_getLast_not_space l)

/-- Appending a suffix that does not end in a space to a non-empty trimmed
string yields a string that trimming fixes. -/
theorem goTrimSpace_append (l zs : List Char) (hne : goTrimSpace l ≠ [])
    (hzs : zs ≠ []) (hlast : ∀ c, zs.getLast? = some c → isGoSpace c = false) :
    goTrimSpace (goTrimSpace l ++ zs) = goTrimSpace l ++ zs := by
  apply goTrimSpace_eq_self
  · intro c hc
    apply goTrimSpace_head_not_space l c
    cases hTc : goTrimSpace l with
    | nil => exact absurd hTc hne
    | cons d ds =>
      rw [hTc] at hc
      simpa using hc
  · intro c hc
    rw [List.getLast?_append_of_ne_nil _ hzs] at hc
    exact hlast c hc

/-! ## Confidence inequalities towards claim C8 -/

/-- Monotonicity of a 0-or-`a` conditional under implication of conditions. -/
theorem ite_le_ite_of_imp {p q : Prop} [Decidable p] [Decidable q]
    (h : p → q) (a : ℤ) (ha : 0 ≤ a) :
    (if p then a else 0) ≤ (if q then a else 0) := by
  by_cases h1 : p
  · rw [if_pos h1, if_pos (h h1)]
  · rw [if_neg h1]
    split_ifs with h2
    · exact ha
    · exact le_refl 0

/-- The specificity bonuses never decrease when text is appended. -/
theorem rawBonuses_le_append (T zs : List Char) :
    rawBonuses T ≤ rawBonuses (T ++ zs) := by
  unfold rawBonuses
  have m1 : ∀ pat : List Char,
      containsSub T pat = true → containsSub (T ++ zs) pat = true :=
    fun pat => containsSub_append_right T zs pat
  refine add_le_add (add_le_add ?_ ?_) ?_
  · refine ite_le_ite_of_imp ?_ 1 (by norm_num)
    intro h
    rcases Bool.or_eq_true_iff.mp h with h | h
    · exact Bool.or_eq_true_iff.mpr (Or.inl (m1 _ h))
    · exact Bool.or_eq_true_iff.mpr (Or.inr (m1 _ h))
  · refine ite_le_ite_of_imp ?_ 1 (by norm_num)
    intro h
    rcases Bool.or_eq_true_iff.mp h with h | h
    · exact Bool.or_eq_true_iff.mpr (Or.inl (m1 _ h))
    · exact Bool.or_eq_true_iff.mpr (Or.inr (m1 _ h))
  · exact ite_le_ite_of_imp (containsActionVerb_append T zs) 1 (by norm_num)

/-- The short-length penalty alone already gives total penalty at least 2. -/
theorem rawPenalties_ge_two_of_short (T : List Char)
    (h : utf8Len T < evaluatorMinimumLength) : 2 ≤ rawPenalties T := by
  unfold rawPenalties
  rw [if_pos h]
  split_ifs <;> norm_num

/-- The vagueness penalty alone already gives total penalty at least 2. -/
theorem rawPenalties_ge_two_of_vague (T : List Char)
    (h : vaguenessMatch (T.map goToLower) = true) : 2 ≤ rawPenalties T := by
  unfold rawPenalties
  rw [if_pos h]
  split_ifs <;> norm_num

/-- After appending a space-led suffix of at least 10 bytes and at least 2
words, the only penalty that can still fire is the vagueness penalty: the
total penalty is at most 2. -/
theorem rawPenalties_append_le_two (T ws : List Char)
    (hlen : 10 ≤ 1 + utf8Len ws) (hw : 2 ≤ countFieldsAux true ws) :
    rawPenalties (T ++ ' ' :: ws) ≤ 2 := by
  unfold rawPenalties
  have h1 : ¬ (utf8Len (T ++ ' ' :: ws) < evaluatorMinimumLength) := by
    rw [utf8Len_append]
    have : utf8Len (' ' :: ws) = 1 + utf8Len ws := by
      unfold utf8Len
      simp [Char.utf8Size]
    rw [this]
    unfold evaluatorMinimumLength
    omega
  have h2 : ¬ (countFields (T ++ ' ' :: ws) < evaluatorMinimumWords) := by
    unfold countFields
    rw [countFieldsAux_append]
    unfold evaluatorMinimumWords
    omega
  rw [if_neg h1, if_neg h2]
  split_ifs <;> norm_num

/-- Appending a space-led suffix with enough bytes and words to a prompt
that already carries at least penalty 2 cannot lower the pre-clamp
confidence. -/
theorem rawConfidence_le_append (T ws : List Char)
    (hlen : 10 ≤ 1 + utf8Len ws) (hw : 2 ≤ countFieldsAux true ws)
    (hpen : 2 ≤ rawPenalties T) :
    rawConfidence T ≤ rawConfidence (T ++ ' ' :: ws) := by
  unfold rawConfidence
  have hb := rawBonuses_le_append T (' ' :: ws)
  have hp := rawPenalties_append_le_two T ws hlen hw
  linarith

/-- The clamp to [0, 10] is monotone. -/
theorem clamp_mono {x y : ℤ} (h : x ≤ y) :
    max 0 (min 10 x) ≤ max 0 (min 10 y) :=
  max_le_max (le_refl 0) (min_le_min (le_refl 10) h)

/-- Confidence is never negative, for any input. -/
theorem evaluate_confidence_nonneg (ro : List DomainRule) (p : String) :
    0 ≤ (evaluate ro p).confidence := by
  by_cases hT : goTrimSpace p.toList = []
  · rw [(evaluate_empty ro p hT).1]
  · rw [evaluate_confidence ro p hT]
    exact le_max_left 0 _

/-- `evaluate_confidence` specialized to an input given as an explicit
character list. -/
theorem evaluate_confidence_mk (ro : List DomainRule) (T : List Char)
    (h : ¬ goTrimSpace T = []) :
    (evaluate ro ⟨T⟩).confidence = max 0 (min 10 (rawConfidence (goTrimSpace T))) :=
  evaluate_confidence ro ⟨T⟩ h

/-- On an unclear (and non-empty-trimming) input, the refined prompt is
`suggestRefinement` applied to the trimmed prompt and its issue list. -/
theorem evaluate_refined_unclear (ro : List DomainRule) (p : String)
    (hT : ¬ goTrimSpace p.toList = [])
    (hc : (evaluate ro p).isClear = false) :
    (evaluate ro p).refinedPrompt =
      suggestRefinement ⟨goTrimSpace p.toList⟩ (issuesSteps (goTrimSpace p.toList)) := by
  revert hc
  unfold evaluate
  rw [if_neg hT]
  split
  · intro hc
    simp at hc
  · intro _
    rfl

/-! ## `suggestRefinement` case analysis -/

/-- When the first issue is the too-short issue, `suggestRefinement`
appends the including-suffix unless it is already present. -/
theorem suggestRefinement_first_short (P : String) (rest : List String) :
    suggestRefinement P (shortIssue :: rest) =
      if containsStr P " including " = true then P else P ++ includingSuffix := by
  unfold suggestRefinement
  simp only [List.headD_cons,
    show containsStr shortIssue "vague" = false from by decide,
    show containsStr shortIssue "too short" = true from by decide]
  by_cases hI : containsStr P " including " = true <;> simp [hI]

/-- When the first issue is the lacks-detail issue, `suggestRefinement`
returns the prompt unchanged. -/
theorem suggestRefinement_first_detail (P : String) (rest : List String) :
    suggestRefinement P (detailIssue :: rest) = P := by
  unfold suggestRefinement
  simp only [List.headD_cons,
    show containsStr detailIssue "vague" = false from by decide,
    show containsStr detailIssue "too short" = false from by decide]
  simp

/-- When the first issue is the vagueness issue, `suggestRefinement`
appends the for-suffix unless a " for " or " including " is already
present. -/
theorem suggestRefinement_first_vague (P : String) (rest : List String) :
    suggestRefinement P (vagueIssue :: rest) =
      if containsStr P " for " = true ∨ containsStr P " including " = true then P
      else P ++ forSuffix := by
  unfold suggestRefinement
  simp only [List.headD_cons,
    show containsStr vagueIssue "vague" = true from by decide,
    show containsStr vagueIssue "too short" = false from by decide]
  by_cases hF : containsStr P " for " = true <;>
    by_cases hI : containsStr P " including " = true <;>
    simp [hF, hI]

/-- With no issues, `suggestRefinement` returns the prompt unchanged. -/
theorem suggestRefinement_nil (P : String) : suggestRefinement P [] = P := by
  unfold suggestRefinement
  simp

/-! ## Claim C8 -/

/-- C8: for every prompt that `Evaluate` judges not clear, re-evaluating
the generated refined prompt (under any map iteration order for either
call) yields a confidence that is not lower than the confidence of the
original unclear prompt. -/
theorem C8_refinement_not_lower (ro ro2 : List DomainRule) (p : String)
    (h : (evaluate ro p).isClear = false) :
    (evaluate ro p).confidence ≤
      (evaluate ro2 ((evaluate ro p).refinedPrompt)).confidence := by
  by_cases hT : goTrimSpace p.toList = []
  · obtain ⟨h1, h2⟩ := evaluate_empty ro p hT
    rw [h1, h2]
    exact evaluate_confidence_nonneg ro2 p
  · have hrefined := evaluate_refined_unclear ro p hT h
    have hconf := evaluate_confidence ro p hT
    have hsame : (evaluate ro2 (⟨goTrimSpace p.toList⟩ : String)).confidence =
        (evaluate ro p).confidence := by
      rw [evaluate_confidence_mk ro2 (goTrimSpace p.toList)
        (by rw [goTrimSpace_idem]; exact hT), goTrimSpace_idem, hconf]
    by_cases hshort : utf8Len (goTrimSpace p.toList) < evaluatorMinimumLength
    · have hiss : issuesSteps (goTrimSpace p.toList) =
          shortIssue ::
            ((if countFields (goTrimSpace p.toList) < evaluatorMinimumWords then
                [detailIssue] else []) ++
             (if vaguenessMatch ((goTrimSpace p.toList).map goToLower) then
                [vagueIssue] else [])) := by
        unfold issuesSteps
        rw [if_pos hshort]
        simp
      rw [hiss, suggestRefinement_first_short] at hrefined
      by_cases hI : containsStr ⟨goTrimSpace p.toList⟩ " including " = true
      · rw [if_pos hI] at hrefined
        rw [hrefined, hsame]
      · rw [if_neg hI] at hrefined
        rw [hrefined]
        have hcast : ((⟨goTrimSpace p.toList⟩ : String) ++ includingSuffix) =
            (⟨goTrimSpace p.toList ++ includingSuffix.toList⟩ : String) := rfl
        rw [hcast]
        have hlastc : ∀ c, includingSuffix.toList.getLast? = some c →
            isGoSpace c = false := by
          intro c hc
          rw [show includingSuffix.toList.getLast? = some 's' from by decide] at hc
          cases hc
          decide
        have htrim := goTrimSpace_append p.toList includingSuffix.toList hT
          (by decide) hlastc
        rw [evaluate_confidence_mk ro2 _
          (by rw [htrim]; intro heq; exact absurd (List.append_eq_nil.mp heq).1 hT)]
        rw [htrim, hconf]
        apply clamp_mono
        rw [show includingSuffix.toList =
          ' ' :: "including error handling and edge cases".toList from rfl]
        exact rawConfidence_le_append _ _ (by decide) (by decide)
          (rawPenalties_ge_two_of_short _ hshort)
    · by_cases hfew : countFields (goTrimSpace p.toList) < evaluatorMinimumWords
      · have hiss : issuesSteps (goTrimSpace p.toList) =
            detailIssue ::
              (if vaguenessMatch ((goTrimSpace p.toList).map goToLower) then
                [vagueIssue] else []) := by
          unfold issuesSteps
          rw [if_neg hshort, if_pos hfew]
          simp
        rw [hiss, suggestRefinement_first_detail] at hrefined
        rw [hrefined, hsame]
      · by_cases hvague : vaguenessMatch ((goTrimSpace p.toList).map goToLower) = true
        · have hiss : issuesSteps (goTrimSpace p.toList) = [vagueIssue] := by
            unfold issuesSteps
            rw [if_neg hshort, if_neg hfew, if_pos hvague]
            simp
          rw [hiss, suggestRefinement_first_vague] at hrefined
          by_cases hFI : containsStr ⟨goTrimSpace p.toList⟩ " for " = true ∨
              containsStr ⟨goTrimSpace p.toList⟩ " including " = true
          · rw [if_pos hFI] at hrefined
            rw [hrefined, hsame]
          · rw [if_neg hFI] at hrefined
            rw [hrefined]
            have hcast : ((⟨goTrimSpace p.toList⟩ : String) ++ forSuffix) =
                (⟨goTrimSpace p.toList ++ forSuffix.toList⟩ : String) := rfl
            rw [hcast]
            have hlastc : ∀ c, forSuffix.toList.getLast? = some c →
                isGoSpace c = false := by
              intro c hc
              rw [show forSuffix.toList.getLast? = some 's' from by decide] at hc
              cases hc
              decide
            have htrim := goTrimSpace_append p.toList forSuffix.toList hT
              (by decide) hlastc
            rw [evaluate_confidence_mk ro2 _
              (by rw [htrim]; intro heq
                  exact absurd (List.append_eq_nil.mp heq).1 hT)]
            rw [htrim, hconf]
            apply clamp_mono
            rw [show forSuffix.toList =
              ' ' :: "for correctness and best practices".toList from rfl]
            exact rawConfidence_le_append _ _ (by decide) (by decide)
              (rawPenalties_ge_two_of_vague _ hvague)
        · have hiss : issuesSteps (goTrimSpace p.toList) = [] := by
            unfold issuesSteps
            rw [if_neg hshort, if_neg hfew, if_neg hvague]
            simp
          rw [hiss, suggestRefinement_nil] at hrefined
          rw [hrefined, hsame]

/-- Witness for C8 at the unclear prompt "Fix the thing": its refinement
re-evaluates to a confidence at least its own. -/
theorem C8_witness :
    (evaluate domainRules "Fix the thing").isClear = false ∧
    (evaluate domainRules "Fix the thing").confidence ≤
      (evaluate domainRules
        ((evaluate domainRules "Fix the thing").refinedPrompt)).confidence :=
  ⟨by decide,
    C8_refinement_not_lower domainRules domainRules "Fix the thing" (by decide)⟩

end CopilotOS
